import Mathlib

/-!
Shallow embedding of the jsfuzzymind fuzzy-logic toolkit (src/index.cjs):
`FuzzySet`, `FuzzyRule` and `InferenceEngine`, with the three
defuzzification strategies.  Real numbers of the source are modelled by ℚ;
the sampling loop `for (let x = min; x <= max; x += step)` is modelled by
the explicit list of its iterates.
-/

namespace JsFuzzyMind

/-- `class FuzzySet` (src/index.cjs line 2): a named membership function. -/
structure FuzzySet where
  name : String
  membershipFunction : ℚ → ℚ

/-- `membershipDegree(x)` (line 8). -/
def FuzzySet.membershipDegree (A : FuzzySet) (x : ℚ) : ℚ :=
  A.membershipFunction x

/-- `union(otherSet)` (line 13): pointwise maximum. -/
def FuzzySet.union (A B : FuzzySet) : FuzzySet :=
  ⟨"Union(" ++ A.name ++ ", " ++ B.name ++ ")",
    fun x => max (A.membershipFunction x) (B.membershipFunction x)⟩

/-- `intersection(otherSet)` (line 20): pointwise minimum. -/
def FuzzySet.intersection (A B : FuzzySet) : FuzzySet :=
  ⟨"Intersection(" ++ A.name ++ ", " ++ B.name ++ ")",
    fun x => min (A.membershipFunction x) (B.membershipFunction x)⟩

/-- `complement()` (line 27): pointwise `1 - mu(x)`. -/
def FuzzySet.complement (A : FuzzySet) : FuzzySet :=
  ⟨"Complement(" ++ A.name ++ ")", fun x => 1 - A.membershipFunction x⟩

/-- `normalize()` (line 34): pointwise `mu(x) / Math.max(1, mu(x))`. -/
def FuzzySet.normalize (A : FuzzySet) : FuzzySet :=
  ⟨"Normalized(" ++ A.name ++ ")",
    fun x => A.membershipFunction x / max 1 (A.membershipFunction x)⟩

/-- Number of iterations of `for (let x = min; x <= max; x += step)`:
the iterates are `min + k*step` for `0 ≤ k ≤ (max-min)/step`, i.e.
`floor((max-min)/step) + 1` of them when `step > 0` and `min ≤ max`,
and none otherwise. -/
def numSamples (mn mx st : ℚ) : ℕ :=
  if st ≤ 0 ∨ mx < mn then 0 else (⌊(mx - mn) / st⌋).toNat + 1

/-- The iterates of the sampling loop, in order. -/
def samples (mn mx st : ℚ) : List ℚ :=
  (List.range (numSamples mn mx st)).map (fun k : ℕ => mn + (k : ℚ) * st)

/-- `centroid(min, max, step)` (line 41): Riemann-sum centroid over the
sampled points, returning 0 when the accumulated denominator is 0. -/
def FuzzySet.centroid (A : FuzzySet) (mn mx st : ℚ) : ℚ :=
  let xs := samples mn mx st
  let numerator := (xs.map (fun x => x * A.membershipFunction x)).sum
  let denominator := (xs.map (fun x => A.membershipFunction x)).sum
  if denominator = 0 then 0 else numerator / denominator

/-- The value a rule evaluation produces: either a plain string label or a
`FuzzySet` (the `result` field of `evaluate`, line 63-64). -/
inductive RuleResult where
  | label (s : String)
  | set (A : FuzzySet)

/-- The `consequence` field of a rule (line 57): either directly a
`FuzzySet` instance or a function of the inputs. -/
inductive Consequence (α : Type) where
  | fixedSet (A : FuzzySet)
  | computed (f : α → RuleResult)

/-- `class FuzzyRule` (line 54). -/
structure FuzzyRule (α : Type) where
  condition : α → Bool
  consequence : Consequence α
  weight : ℚ

/-- `evaluate(inputs)` (line 61): when the condition holds, resolve the
consequence (a `FuzzySet` instance is used directly, a function is
invoked) and pair it with the rule's weight; otherwise `null`. -/
def FuzzyRule.evaluate {α : Type} (r : FuzzyRule α) (inputs : α) :
    Option (RuleResult × ℚ) :=
  if r.condition inputs then
    some (match r.consequence with
      | Consequence.fixedSet A => RuleResult.set A
      | Consequence.computed f => f inputs, r.weight)
  else none

/-- `class InferenceEngine` (line 71). -/
structure InferenceEngine (α : Type) where
  rules : List (FuzzyRule α)

/-- `priorityMapping(priority)` (line 100): the `switch` maps the three
recognized labels to 3, 2, 1; every other value (any other string, or a
`FuzzySet` instance) falls through to the default 0. -/
def InferenceEngine.priorityMapping (r : RuleResult) : ℚ :=
  match r with
  | RuleResult.label s =>
      if s = "Urgent" then 3
      else if s = "High Priority" then 2
      else if s = "Medium Priority" then 1
      else 0
  | RuleResult.set _ => 0

/-- `reversePriorityMapping(score)` (line 109). -/
def InferenceEngine.reversePriorityMapping (score : ℚ) : String :=
  if score ≥ 5 / 2 then "Urgent"
  else if score ≥ 3 / 2 then "High Priority"
  else if score ≥ 1 / 2 then "Medium Priority"
  else "Low Priority"

/-- `aggregateResults(results)` (line 87). -/
def InferenceEngine.aggregateResults (results : List (RuleResult × ℚ)) :
    String :=
  if results.isEmpty then "Low Priority"
  else
    let totalWeight := (results.map (fun rw => rw.2)).sum
    let weightedSum :=
      (results.map (fun rw => InferenceEngine.priorityMapping rw.1 * rw.2)).sum
    if 0 < totalWeight then
      InferenceEngine.reversePriorityMapping (weightedSum / totalWeight)
    else "Low Priority"

/-- `infer(inputs)` (line 76): evaluate every rule in order, keep the
non-null evaluations, aggregate. -/
def InferenceEngine.infer {α : Type} (e : InferenceEngine α) (inputs : α) :
    String :=
  InferenceEngine.aggregateResults
    (e.rules.filterMap (fun r => r.evaluate inputs))

/-- `getFuzzySetConsequences()` (line 116): map to the stored `consequence`
fields and keep those that are `FuzzySet` instances. -/
def InferenceEngine.getFuzzySetConsequences {α : Type}
    (e : InferenceEngine α) : List FuzzySet :=
  (e.rules.map (fun r => r.consequence)).filterMap
    (fun c => match c with
      | Consequence.fixedSet A => some A
      | Consequence.computed _ => none)

/-- The aggregate membership at `x`: `mu` starts at 0 and takes the `max`
with each fuzzy-set consequence (lines 127-130, 143-146, 165-168). -/
def aggMu (sets : List FuzzySet) (x : ℚ) : ℚ :=
  sets.foldl (fun m A => max m (A.membershipFunction x)) 0

/-- `defuzzifyCentroid(min, max, step)` (line 122). -/
def InferenceEngine.defuzzifyCentroid {α : Type} (e : InferenceEngine α)
    (mn mx st : ℚ) : ℚ :=
  let sets := e.getFuzzySetConsequences
  let xs := samples mn mx st
  let numerator := (xs.map (fun x => x * aggMu sets x)).sum
  let denominator := (xs.map (fun x => aggMu sets x)).sum
  if denominator = 0 then 0 else numerator / denominator

/-- The running state of `defuzzifyMOM`: `maxMu`, `sumX`, `count`
(lines 138-140). -/
structure MOMState where
  maxMu : ℚ
  sumX : ℚ
  count : ℕ
deriving DecidableEq

/-- One iteration of the `defuzzifyMOM` loop (lines 142-155). -/
def momStep (sets : List FuzzySet) (s : MOMState) (x : ℚ) : MOMState :=
  let mu := aggMu sets x
  if mu > s.maxMu then ⟨mu, x, 1⟩
  else if mu = s.maxMu then ⟨s.maxMu, s.sumX + x, s.count + 1⟩
  else s

/-- `defuzzifyMOM(min, max, step)` (line 137). -/
def InferenceEngine.defuzzifyMOM {α : Type} (e : InferenceEngine α)
    (mn mx st : ℚ) : ℚ :=
  let s := (samples mn mx st).foldl (momStep e.getFuzzySetConsequences)
    ⟨0, 0, 0⟩
  if s.count = 0 then 0 else s.sumX / (s.count : ℚ)

/-- The second loop of `defuzzifyBisector` (lines 171-181): accumulate
`mu * step` and break at the first sample where the accumulated left area
reaches half the total; `none` when the loop runs out. -/
def bisectorLoop (sets : List FuzzySet) (st half : ℚ) :
    List ℚ → ℚ → Option ℚ
  | [], _ => none
  | x :: xs, acc =>
    let acc' := acc + aggMu sets x * st
    if acc' ≥ half then some x else bisectorLoop sets st half xs acc'

/-- `defuzzifyBisector(min, max, step)` (line 159): first total area, then
the left-area walk; `bisector` keeps its initial value `min` when the
second loop never breaks. -/
def InferenceEngine.defuzzifyBisector {α : Type} (e : InferenceEngine α)
    (mn mx st : ℚ) : ℚ :=
  let sets := e.getFuzzySetConsequences
  let totalArea := ((samples mn mx st).map (fun x => aggMu sets x * st)).sum
  (bisectorLoop sets st (totalArea / 2) (samples mn mx st) 0).getD mn

/-- The running maximum that the MOM loop maintains over a full pass: the
fold of `max` over the aggregate memberships of the samples, started at
the initial `maxMu = 0`. -/
def maxAgg (sets : List FuzzySet) (xs : List ℚ) : ℚ :=
  (xs.map (aggMu sets)).foldl max 0

/-- The left area accumulated by the bisector loop after processing the
samples up to index `i` inclusive. -/
def leftAreaUpTo (sets : List FuzzySet) (st : ℚ) (xs : List ℚ) (i : ℕ) : ℚ :=
  ((xs.take (i + 1)).map (fun x => aggMu sets x * st)).sum

/-- The total area accumulated by the first bisector loop. -/
def totalAreaOf (sets : List FuzzySet) (st : ℚ) (xs : List ℚ) : ℚ :=
  (xs.map (fun x => aggMu sets x * st)).sum

section ExampleDefinitions

/-- The input record of the README example: `{urgency, complexity}`. -/
structure Ticket where
  urgency : ℚ
  complexity : ℚ

/-- The README's `urgencySet`: 0 below 3, linear ramp `(u-3)/4` on
`[3, 7)`, then 1. -/
def urgencySet : FuzzySet :=
  ⟨"Urgency", fun u => if u < 3 then 0 else if u < 7 then (u - 3) / 4 else 1⟩

/-- The README's `complexitySet`: 0 below 2, ramp `(c-2)/3` on `[2, 5)`,
then 1. -/
def complexitySet : FuzzySet :=
  ⟨"Complexity", fun c =>
    if c < 2 then 0 else if c < 5 then (c - 2) / 3 else 1⟩

/-- The README's `FuzzySet('Urgent', x => x >= 7 ? 1 : x / 7)`. -/
def urgentSet : FuzzySet := ⟨"Urgent", fun x => if x ≥ 7 then 1 else x / 7⟩

/-- The four rules of the README example, in order, each with the default
weight 1. -/
def exampleRules : List (FuzzyRule Ticket) :=
  [⟨fun t => decide (7 / 10 < urgencySet.membershipDegree t.urgency
      ∧ 7 / 10 < complexitySet.membershipDegree t.complexity),
    Consequence.fixedSet urgentSet, 1⟩,
   ⟨fun t => decide (1 / 2 < urgencySet.membershipDegree t.urgency),
    Consequence.computed (fun _ => RuleResult.label "High Priority"), 1⟩,
   ⟨fun t => decide (1 / 2 < complexitySet.membershipDegree t.complexity),
    Consequence.computed (fun _ => RuleResult.label "Medium Priority"), 1⟩,
   ⟨fun t => decide (urgencySet.membershipDegree t.urgency ≤ 1 / 2
      ∧ complexitySet.membershipDegree t.complexity ≤ 1 / 2),
    Consequence.computed (fun _ => RuleResult.label "Low Priority"), 1⟩]

/-- The README's engine. -/
def exampleEngine : InferenceEngine Ticket := ⟨exampleRules⟩

/-- A concrete set with membership `2x`, used to witness the clamp. -/
def doubleSet : FuzzySet := ⟨"Double", fun x => 2 * x⟩

/-- The spec's fixed score lookup table:
`Urgent` to 3, `High Priority` to 2, `Medium Priority` to 1. -/
def specScoreTable : List (String × ℚ) :=
  [("Urgent", 3), ("High Priority", 2), ("Medium Priority", 1)]

/-- The spec's scoring of a matched result: labels go through the fixed
lookup with default 0, and everything else (FuzzySet instances) scores 0. -/
def specScore : RuleResult → ℚ
  | RuleResult.label s => (specScoreTable.lookup s).getD 0
  | RuleResult.set _ => 0

/-- The `infer` algorithm as the spec words it: collect matched rules in
order; with no match return `"Low Priority"`; with total weight 0 return
`"Low Priority"`; otherwise map the weighted mean score through the
thresholds 2.5, 1.5, 0.5. -/
def inferSpec {α : Type} (e : InferenceEngine α) (inputs : α) : String :=
  let matched := e.rules.filterMap (fun r => r.evaluate inputs)
  if matched.length = 0 then "Low Priority"
  else
    let totalWeight := (matched.map (fun p => p.2)).sum
    if totalWeight = 0 then "Low Priority"
    else
      let mean :=
        (matched.map (fun p => specScore p.1 * p.2)).sum / totalWeight
      if mean ≥ 5 / 2 then "Urgent"
      else if mean ≥ 3 / 2 then "High Priority"
      else if mean ≥ 1 / 2 then "Medium Priority"
      else "Low Priority"

/-- A set whose membership is 1 everywhere except a dip to 1/2 at
`x = 1`: its sampled maximum on `[0, 2]` with step 1 is attained at
`x = 0`, lost at `x = 1`, and re-attained at `x = 2`. -/
def dipSet : FuzzySet := ⟨"Dip", fun x => if x = 1 then 1 / 2 else 1⟩

/-- An engine whose single rule has `dipSet` as its fixed consequence. -/
def dipEngine : InferenceEngine Unit :=
  ⟨[⟨fun _ => true, Consequence.fixedSet dipSet, 1⟩]⟩

/-- An engine with no rules at all: its aggregate curve is 0 everywhere. -/
def emptyEngine : InferenceEngine Unit := ⟨[]⟩

/-- An engine whose only rule has a function-valued consequence that
would return a `FuzzySet` at evaluation time. -/
def hiddenSetEngine : InferenceEngine Unit :=
  ⟨[⟨fun _ => true, Consequence.computed (fun _ => RuleResult.set dipSet), 1⟩]⟩

/-- An engine with the same fuzzy-set consequences as `dipEngine` but a
different condition, a different weight, and an extra rule with a
function-valued consequence. -/
def shuffledEngine : InferenceEngine Unit :=
  ⟨[⟨fun _ => false, Consequence.computed (fun _ => RuleResult.label "x"), 5⟩,
    ⟨fun _ => false, Consequence.fixedSet dipSet, 2⟩]⟩

/-- A set with membership 0 everywhere. -/
def zeroSet : FuzzySet := ⟨"Zero", fun _ => 0⟩

end ExampleDefinitions

section PointwiseClaims

/-- C6: union is the pointwise maximum, intersection the pointwise
minimum, and complement the pointwise `1 - mu`, of the operands'
membership degrees. -/
theorem union_intersection_complement_pointwise (A B : FuzzySet) (x : ℚ) :
    (A.union B).membershipDegree x
        = max (A.membershipDegree x) (B.membershipDegree x)
      ∧ (A.intersection B).membershipDegree x
        = min (A.membershipDegree x) (B.membershipDegree x)
      ∧ A.complement.membershipDegree x = 1 - A.membershipDegree x :=
  ⟨rfl, rfl, rfl⟩

/-- C4: `normalize` computes `mu(x) / max(1, mu(x))`; values in `[0, 1]`
pass through unchanged and values above 1 are clamped to exactly 1. -/
theorem normalize_clamps (A : FuzzySet) (x : ℚ) :
    A.normalize.membershipDegree x
        = A.membershipDegree x / max 1 (A.membershipDegree x)
      ∧ (0 ≤ A.membershipDegree x → A.membershipDegree x ≤ 1 →
          A.normalize.membershipDegree x = A.membershipDegree x)
      ∧ (1 < A.membershipDegree x → A.normalize.membershipDegree x = 1) := by
  refine ⟨rfl, ?_, ?_⟩
  · intro _ h1
    have hm : max 1 (A.membershipDegree x) = 1 := max_eq_left h1
    show A.membershipFunction x / max 1 (A.membershipFunction x)
      = A.membershipFunction x
    rw [show max 1 (A.membershipFunction x) = 1 from hm, div_one]
  · intro h1
    have hm : max 1 (A.membershipDegree x) = A.membershipDegree x :=
      max_eq_right (le_of_lt h1)
    have hne : A.membershipDegree x ≠ 0 := by positivity
    show A.membershipFunction x / max 1 (A.membershipFunction x) = 1
    rw [show max 1 (A.membershipFunction x) = A.membershipFunction x from hm]
    exact div_self hne

/-- Witness for C4 at concrete inputs: membership `2x` is clamped to 1 at
`x = 1` (where `mu = 2 > 1`) and passed through at `x = 1/4`
(where `mu = 1/2 ∈ [0, 1]`). -/
theorem normalize_clamps_witness :
    doubleSet.normalize.membershipDegree 1
        = doubleSet.membershipDegree 1 / max 1 (doubleSet.membershipDegree 1)
      ∧ doubleSet.normalize.membershipDegree 1 = 1
      ∧ doubleSet.normalize.membershipDegree (1 / 4)
        = doubleSet.membershipDegree (1 / 4) := by
  refine ⟨(normalize_clamps doubleSet 1).1, ?_, ?_⟩
  · exact (normalize_clamps doubleSet 1).2.2 (by norm_num [doubleSet,
      FuzzySet.membershipDegree])
  · exact (normalize_clamps doubleSet (1 / 4)).2.1
      (by norm_num [doubleSet, FuzzySet.membershipDegree])
      (by norm_num [doubleSet, FuzzySet.membershipDegree])

end PointwiseClaims

section ReferenceExample

/-- C2 counterexample: on the README ticket `{urgency: 8, complexity: 6}`
the engine does not return `"Urgent"`: the first three rules match, the
FuzzySet consequence scores 0 and the two label rules score 2 and 1, so
the weighted mean is `(0 + 2 + 1) / 3 = 1`, below the 2.5 threshold. -/
theorem infer_example_not_urgent :
    exampleEngine.infer ⟨8, 6⟩ ≠ "Urgent" := by
  norm_num [InferenceEngine.infer, exampleEngine, exampleRules,
    FuzzyRule.evaluate, InferenceEngine.aggregateResults,
    InferenceEngine.priorityMapping, InferenceEngine.reversePriorityMapping,
    FuzzySet.membershipDegree, urgencySet, complexitySet, urgentSet,
    List.filterMap_cons]
  simp only [String.reduceEq, if_false]
  norm_num
  decide

/-- C2 amended: on the ticket `{urgency: 8, complexity: 6}` the engine
returns `"Medium Priority"` (weighted mean 1 falls in `[0.5, 1.5)`). -/
theorem infer_example_medium_priority :
    exampleEngine.infer ⟨8, 6⟩ = "Medium Priority" := by
  norm_num [InferenceEngine.infer, exampleEngine, exampleRules,
    FuzzyRule.evaluate, InferenceEngine.aggregateResults,
    InferenceEngine.priorityMapping, InferenceEngine.reversePriorityMapping,
    FuzzySet.membershipDegree, urgencySet, complexitySet, urgentSet,
    List.filterMap_cons]
  simp only [String.reduceEq, if_false]
  norm_num

end ReferenceExample

section InferClaim

/-- The source's `switch`-based scoring agrees with the spec's lookup
table everywhere. -/
theorem priorityMapping_eq_specScore (p : RuleResult) :
    InferenceEngine.priorityMapping p = specScore p := by
  cases p with
  | label s =>
      simp only [InferenceEngine.priorityMapping, specScore]
      by_cases h1 : s = "Urgent"
      · subst h1; simp [specScoreTable, List.lookup, String.reduceBEq]
      · by_cases h2 : s = "High Priority"
        · subst h2; simp [specScoreTable, List.lookup, String.reduceBEq]
        · by_cases h3 : s = "Medium Priority"
          · subst h3; simp [specScoreTable, List.lookup, String.reduceBEq]
          · simp [specScoreTable, List.lookup, h1, h2, h3,
              beq_eq_false_iff_ne.mpr h1, beq_eq_false_iff_ne.mpr h2,
              beq_eq_false_iff_ne.mpr h3]
  | set A => rfl

/-- Every matched evaluation carries the weight of one of the engine's
rules. -/
theorem mem_matched_weight {α : Type} (e : InferenceEngine α) (inputs : α)
    (p : RuleResult × ℚ)
    (hp : p ∈ e.rules.filterMap (fun r => r.evaluate inputs)) :
    ∃ r ∈ e.rules, p.2 = r.weight := by
  rw [List.mem_filterMap] at hp
  obtain ⟨r, hr, he⟩ := hp
  refine ⟨r, hr, ?_⟩
  unfold FuzzyRule.evaluate at he
  by_cases hc : r.condition inputs
  · rw [if_pos hc, Option.some.injEq] at he
    rw [← he]
  · rw [if_neg hc] at he
    exact absurd he (by simp)

/-- C1: on rules with non-negative weights (the data model's invariant),
`infer` behaves exactly as specified: no match gives `"Low Priority"`,
zero total weight gives `"Low Priority"`, and otherwise the weighted mean
of the fixed per-label scores is mapped through the 2.5 / 1.5 / 0.5
thresholds. -/
theorem infer_matches_spec {α : Type} (e : InferenceEngine α) (inputs : α)
    (hw : ∀ r ∈ e.rules, 0 ≤ r.weight) :
    e.infer inputs = inferSpec e inputs := by
  unfold InferenceEngine.infer inferSpec InferenceEngine.aggregateResults
  simp only [priorityMapping_eq_specScore, List.isEmpty_eq_true,
    List.length_eq_zero]
  set matched := e.rules.filterMap (fun r => r.evaluate inputs) with hm
  have hwm : ∀ p ∈ matched, (0 : ℚ) ≤ p.2 := by
    intro p hp
    obtain ⟨r, hr, hpr⟩ := mem_matched_weight e inputs p (hm ▸ hp)
    rw [hpr]
    exact hw r hr
  have htw : (0 : ℚ) ≤ (matched.map (fun p => p.2)).sum := by
    apply List.sum_nonneg
    intro x hx
    rw [List.mem_map] at hx
    obtain ⟨p, hp, rfl⟩ := hx
    exact hwm p hp
  by_cases hemp : matched = []
  · simp [hemp]
  · have h1 : ¬matched.isEmpty = true := by simpa using hemp
    have h2 : ¬matched.length = 0 := by simpa using hemp
    rw [if_neg h1, if_neg h2]
    by_cases htz : (matched.map (fun p => p.2)).sum = 0
    · have hlt : ¬(0 : ℚ) < (matched.map (fun p => p.2)).sum := by
        rw [htz]
        exact lt_irrefl 0
      rw [if_neg hlt, if_pos htz]
    · rw [if_neg htz, if_pos (lt_of_le_of_ne htw (Ne.symm htz))]
      rfl

/-- Witness for C1: the reference engine has non-negative weights and its
`infer` output on the README ticket agrees with the specified algorithm. -/
theorem infer_matches_spec_witness :
    (∀ r ∈ exampleEngine.rules, (0 : ℚ) ≤ r.weight)
      ∧ exampleEngine.infer ⟨8, 6⟩ = inferSpec exampleEngine ⟨8, 6⟩ := by
  have hw : ∀ r ∈ exampleEngine.rules, (0 : ℚ) ≤ r.weight := by
    intro r hr
    fin_cases hr <;> norm_num
  exact ⟨hw, infer_matches_spec exampleEngine ⟨8, 6⟩ hw⟩

end InferClaim

section MOMClaims

/-- The initial accumulator bounds a `max`-fold from below. -/
theorem le_foldl_max (l : List ℚ) (init : ℚ) : init ≤ l.foldl max init := by
  induction l generalizing init with
  | nil => exact le_refl init
  | cons a t ih => exact le_trans (le_max_left init a) (ih (max init a))

/-- Every member of the list bounds a `max`-fold from below. -/
theorem mem_le_foldl_max (l : List ℚ) (init a : ℚ) (ha : a ∈ l) :
    a ≤ l.foldl max init := by
  induction l generalizing init with
  | nil => cases ha
  | cons b t ih =>
      rcases List.mem_cons.mp ha with h | h
      · subst h
        exact le_trans (le_max_right init a) (le_foldl_max t (max init a))
      · exact ih (max init b) h

/-- Appending one sample takes the running maximum to the `max` with its
aggregate membership. -/
theorem maxAgg_append (sets : List FuzzySet) (xs : List ℚ) (a : ℚ) :
    maxAgg sets (xs ++ [a]) = max (maxAgg sets xs) (aggMu sets a) := by
  simp [maxAgg, List.foldl_append]

/-- The aggregate membership of every sample is bounded by the final
running maximum. -/
theorem aggMu_le_maxAgg (sets : List FuzzySet) (xs : List ℚ) (y : ℚ)
    (hy : y ∈ xs) : aggMu sets y ≤ maxAgg sets xs :=
  mem_le_foldl_max _ _ _ (List.mem_map_of_mem (aggMu sets) hy)

/-- The MOM loop invariant: after any full pass the state holds the
running maximum of the aggregate memberships (seeded with 0), and the sum
and count of ALL samples whose membership equals that maximum - including
samples that re-attain it after an intermediate dip, because the
`mu === maxMu` branch accumulates regardless of what came between. -/
theorem mom_foldl_eq (sets : List FuzzySet) (xs : List ℚ) :
    xs.foldl (momStep sets) ⟨0, 0, 0⟩ =
      ⟨maxAgg sets xs,
        (xs.filter (fun x => aggMu sets x = maxAgg sets xs)).sum,
        (xs.filter (fun x => aggMu sets x = maxAgg sets xs)).length⟩ := by
  induction xs using List.reverseRecOn with
  | nil => simp [maxAgg]
  | append_singleton l a ih =>
      rw [List.foldl_append, List.foldl_cons, List.foldl_nil, ih,
        maxAgg_append]
      rcases lt_trichotomy (aggMu sets a) (maxAgg sets l) with h | h | h
      · rw [max_eq_left h.le]
        unfold momStep
        rw [if_neg (by exact not_lt.mpr h.le), if_neg (by exact h.ne)]
        rw [List.filter_append]
        rw [show List.filter (fun x => decide (aggMu sets x = maxAgg sets l))
            [a] = [] by simp [h.ne]]
        simp
      · rw [max_eq_left h.le]
        unfold momStep
        rw [if_neg (by exact not_lt.mpr h.le), if_pos h]
        rw [List.filter_append]
        rw [show List.filter (fun x => decide (aggMu sets x = maxAgg sets l))
            [a] = [a] by simp [h]]
        simp
      · rw [max_eq_right h.le]
        unfold momStep
        rw [if_pos h]
        rw [List.filter_append]
        have hnil : List.filter
            (fun x => decide (aggMu sets x = aggMu sets a)) l = [] := by
          rw [List.filter_eq_nil_iff]
          intro y hy
          simp only [decide_eq_true_eq]
          exact ne_of_lt (lt_of_le_of_lt (aggMu_le_maxAgg sets l y hy) h)
        rw [hnil]
        simp

/-- C3 amended: `defuzzifyMOM` returns the mean of ALL sampled x whose
aggregate membership equals the final running maximum (the `max`-fold of
the sampled memberships seeded with the initial `maxMu = 0`), including
x-values that re-attain that maximum after an intermediate dip; only a
strictly greater membership resets the accumulator, an exactly equal one
always extends it. -/
theorem defuzzifyMOM_mean_of_global_maxima {α : Type}
    (e : InferenceEngine α) (mn mx st : ℚ) :
    e.defuzzifyMOM mn mx st =
      if ((samples mn mx st).filter (fun x =>
            aggMu e.getFuzzySetConsequences x
              = maxAgg e.getFuzzySetConsequences (samples mn mx st))).length
          = 0
      then 0
      else ((samples mn mx st).filter (fun x =>
            aggMu e.getFuzzySetConsequences x
              = maxAgg e.getFuzzySetConsequences (samples mn mx st))).sum
        / (((samples mn mx st).filter (fun x =>
            aggMu e.getFuzzySetConsequences x
              = maxAgg e.getFuzzySetConsequences (samples mn mx st))).length
            : ℚ) := by
  unfold InferenceEngine.defuzzifyMOM
  rw [mom_foldl_eq]

/-- The concrete sample list for domain `[0, 2]` with step 1. -/
theorem samples_012 : samples 0 2 1 = [0, 1, 2] := by
  have h2 : ((2 : ℚ) - 0) / 1 = ((2 : ℕ) : ℚ) := by norm_num
  have hn : numSamples 0 2 1 = 3 := by
    unfold numSamples
    rw [if_neg (by norm_num), h2, Int.floor_natCast]
    rfl
  unfold samples
  rw [hn]
  norm_num [List.range_succ]

/-- C3 counterexample: for `dipEngine` on `[0, 2]` with step 1 the
aggregate curve attains its maximum 1 at `x = 0`, dips to 1/2 at `x = 1`,
and re-attains exactly 1 at `x = 2`; `defuzzifyMOM` returns the mean
`(0 + 2) / 2 = 1` of BOTH maxima, not the mean 0 of the single first
contiguous equal-run `{0}` that the claim predicts. -/
theorem defuzzifyMOM_dip_counterexample :
    aggMu dipEngine.getFuzzySetConsequences 0 = 1
      ∧ aggMu dipEngine.getFuzzySetConsequences 1 = 1 / 2
      ∧ aggMu dipEngine.getFuzzySetConsequences 2 = 1
      ∧ samples 0 2 1 = [0, 1, 2]
      ∧ dipEngine.defuzzifyMOM 0 2 1 = 1
      ∧ dipEngine.defuzzifyMOM 0 2 1 ≠ 0 := by
  have hsets : dipEngine.getFuzzySetConsequences = [dipSet] := rfl
  have h0 : momStep [dipSet] ⟨0, 0, 0⟩ 0 = ⟨1, 0, 1⟩ := by
    norm_num [momStep, aggMu, dipSet, max_def,
      List.foldl_cons, List.foldl_nil]
  have h1 : momStep [dipSet] ⟨1, 0, 1⟩ 1 = ⟨1, 0, 1⟩ := by
    norm_num [momStep, aggMu, dipSet, max_def,
      List.foldl_cons, List.foldl_nil]
  have h2 : momStep [dipSet] ⟨1, 0, 1⟩ 2 = ⟨1, 2, 2⟩ := by
    norm_num [momStep, aggMu, dipSet, max_def,
      List.foldl_cons, List.foldl_nil]
  have hmom : dipEngine.defuzzifyMOM 0 2 1 = 1 := by
    unfold InferenceEngine.defuzzifyMOM
    rw [samples_012, hsets, List.foldl_cons, h0, List.foldl_cons, h1,
      List.foldl_cons, h2, List.foldl_nil]
    norm_num
  refine ⟨?_, ?_, ?_, samples_012, hmom, ?_⟩
  · rw [hsets]
    norm_num [aggMu, dipSet, max_def, List.foldl_cons, List.foldl_nil]
  · rw [hsets]
    norm_num [aggMu, dipSet, max_def, List.foldl_cons, List.foldl_nil]
  · rw [hsets]
    norm_num [aggMu, dipSet, max_def, List.foldl_cons, List.foldl_nil]
  · rw [hmom]
    norm_num

/-- A `max`-fold from 0 over a list of zeros is 0. -/
theorem foldl_max_zero (l : List ℚ) (h : ∀ a ∈ l, a = 0) :
    l.foldl max 0 = 0 := by
  induction l with
  | nil => rfl
  | cons a t ih =>
      rw [List.foldl_cons, h a (List.mem_cons_self a t), max_self]
      exact ih (fun b hb => h b (List.mem_cons_of_mem a hb))

/-- C9: when the aggregate curve is 0 at every sample and there is at
least one sample, `defuzzifyMOM` returns the arithmetic mean of all
sampled x-values, because the initial running maximum 0 makes every
zero-membership sample extend the accumulator. -/
theorem defuzzifyMOM_zero_curve {α : Type} (e : InferenceEngine α)
    (mn mx st : ℚ) (hne : samples mn mx st ≠ [])
    (hz : ∀ x ∈ samples mn mx st,
      aggMu e.getFuzzySetConsequences x = 0) :
    e.defuzzifyMOM mn mx st
      = (samples mn mx st).sum / ((samples mn mx st).length : ℚ) := by
  have hmax : maxAgg e.getFuzzySetConsequences (samples mn mx st) = 0 := by
    unfold maxAgg
    apply foldl_max_zero
    intro a ha
    rw [List.mem_map] at ha
    obtain ⟨x, hx, rfl⟩ := ha
    exact hz x hx
  have hfil : (samples mn mx st).filter (fun x =>
      aggMu e.getFuzzySetConsequences x
        = maxAgg e.getFuzzySetConsequences (samples mn mx st))
      = samples mn mx st := by
    rw [List.filter_eq_self]
    intro a ha
    simp [hz a ha, hmax]
  unfold InferenceEngine.defuzzifyMOM
  rw [mom_foldl_eq, hfil]
  rw [if_neg (by simpa [List.length_eq_zero] using hne)]

/-- Witness for C9: the rule-less engine's aggregate curve is 0 on all of
`[0, 2]` with step 1, and its MOM output is `(0 + 1 + 2) / 3 = 1`, the
midpoint, not 0. -/
theorem defuzzifyMOM_zero_curve_witness :
    samples 0 2 1 ≠ []
      ∧ (∀ x ∈ samples 0 2 1,
          aggMu emptyEngine.getFuzzySetConsequences x = 0)
      ∧ emptyEngine.defuzzifyMOM 0 2 1 = 1 := by
  have hne : samples 0 2 1 ≠ [] := by
    rw [samples_012]
    simp
  have hz : ∀ x ∈ samples 0 2 1,
      aggMu emptyEngine.getFuzzySetConsequences x = 0 := by
    intro x hx
    rfl
  refine ⟨hne, hz, ?_⟩
  rw [defuzzifyMOM_zero_curve emptyEngine 0 2 1 hne hz, samples_012]
  norm_num

end MOMClaims

section BisectorClaims

/-- The aggregate membership is never negative: the fold starts at 0 and
only takes maxima. -/
theorem aggMu_nonneg (sets : List FuzzySet) (x : ℚ) : 0 ≤ aggMu sets x := by
  unfold aggMu
  have h : ∀ (l : List FuzzySet) (init : ℚ),
      init ≤ l.foldl (fun m A => max m (A.membershipFunction x)) init := by
    intro l
    induction l with
    | nil => intro init; exact le_refl init
    | cons A t ih =>
        intro init
        exact le_trans (le_max_left init (A.membershipFunction x)) (ih _)
  exact h sets 0

/-- A nonempty sample list forces a positive step and an ordered domain:
otherwise the loop guard fails immediately. -/
theorem samples_ne_nil_conditions (mn mx st : ℚ)
    (h : samples mn mx st ≠ []) : 0 < st ∧ mn ≤ mx := by
  unfold samples numSamples at h
  by_cases hc : st ≤ 0 ∨ mx < mn
  · rw [if_pos hc] at h
    simp at h
  · push_neg at hc
    exact hc

/-- A nonempty sample list starts at `min` (the iterate `min + 0*step`). -/
theorem samples_eq_cons (mn mx st : ℚ) (h : samples mn mx st ≠ []) :
    ∃ t, samples mn mx st = mn :: t := by
  unfold samples at *
  cases hn : numSamples mn mx st with
  | zero =>
      rw [hn] at h
      simp at h
  | succ k =>
      rw [List.range_succ_eq_map, List.map_cons, List.map_map]
      refine ⟨List.map ((fun j : ℕ => mn + (j : ℚ) * st) ∘ Nat.succ)
        (List.range k), ?_⟩
      simp

/-- When every prefix area stays below the threshold, the bisector loop
runs out and returns `none`. -/
theorem bisectorLoop_eq_none (sets : List FuzzySet) (st half : ℚ)
    (xs : List ℚ) (acc : ℚ)
    (h : ∀ i, i < xs.length →
      acc + ((xs.take (i + 1)).map (fun x => aggMu sets x * st)).sum
        < half) :
    bisectorLoop sets st half xs acc = none := by
  induction xs generalizing acc with
  | nil => rfl
  | cons x t ih =>
      have h0 : acc + aggMu sets x * st < half := by
        have := h 0 (Nat.succ_pos t.length)
        simpa using this
      simp only [bisectorLoop]
      rw [if_neg (not_le.mpr h0)]
      apply ih
      intro i hi
      have := h (i + 1) (Nat.succ_lt_succ hi)
      rw [List.take_succ_cons, List.map_cons, List.sum_cons, ← add_assoc]
        at this
      exact this

/-- When index `i` holds the first prefix area reaching the threshold, the
bisector loop breaks exactly there. -/
theorem bisectorLoop_eq_some (sets : List FuzzySet) (st half : ℚ)
    (xs : List ℚ) (acc : ℚ) (i : ℕ) (hi : i < xs.length)
    (hlt : ∀ j, j < i →
      acc + ((xs.take (j + 1)).map (fun x => aggMu sets x * st)).sum
        < half)
    (hge : half ≤
      acc + ((xs.take (i + 1)).map (fun x => aggMu sets x * st)).sum) :
    bisectorLoop sets st half xs acc = some (xs.get ⟨i, hi⟩) := by
  induction xs generalizing acc i with
  | nil => cases hi
  | cons x t ih =>
      cases i with
      | zero =>
          have hge0 : half ≤ acc + aggMu sets x * st := by simpa using hge
          simp only [bisectorLoop]
          rw [if_pos hge0]
          rfl
      | succ j =>
          have h0 : acc + aggMu sets x * st < half := by
            have := hlt 0 (Nat.succ_pos j)
            simpa using this
          simp only [bisectorLoop]
          rw [if_neg (not_le.mpr h0)]
          have hj : j < t.length := Nat.lt_of_succ_lt_succ hi
          have hlt' : ∀ m, m < j →
              (acc + aggMu sets x * st)
                + ((t.take (m + 1)).map (fun y => aggMu sets y * st)).sum
                < half := by
            intro m hm
            have := hlt (m + 1) (Nat.succ_lt_succ hm)
            rw [List.take_succ_cons, List.map_cons, List.sum_cons,
              ← add_assoc] at this
            exact this
          have hge' : half ≤ (acc + aggMu sets x * st)
              + ((t.take (j + 1)).map (fun y => aggMu sets y * st)).sum := by
            rw [List.take_succ_cons, List.map_cons, List.sum_cons,
              ← add_assoc] at hge
            exact hge
          rw [ih (acc + aggMu sets x * st) j hj hlt' hge']
          rfl

end BisectorClaims

/-- C5: `defuzzifyBisector` returns the first sampled x whose accumulated
left area reaches or exceeds half of the total area of the aggregate
curve; when no sample reaches the threshold it returns `min`, and when
the total area is 0 it returns `min` as well. -/
theorem defuzzifyBisector_first_crossing {α : Type} (e : InferenceEngine α)
    (mn mx st : ℚ) :
    (∀ i (hi : i < (samples mn mx st).length),
      ((∀ j, j < i →
          leftAreaUpTo e.getFuzzySetConsequences st (samples mn mx st) j
            < totalAreaOf e.getFuzzySetConsequences st (samples mn mx st)
              / 2)
        ∧ totalAreaOf e.getFuzzySetConsequences st (samples mn mx st) / 2
          ≤ leftAreaUpTo e.getFuzzySetConsequences st (samples mn mx st) i)
        → e.defuzzifyBisector mn mx st = (samples mn mx st).get ⟨i, hi⟩)
    ∧ ((∀ i, i < (samples mn mx st).length →
        leftAreaUpTo e.getFuzzySetConsequences st (samples mn mx st) i
          < totalAreaOf e.getFuzzySetConsequences st (samples mn mx st) / 2)
        → e.defuzzifyBisector mn mx st = mn)
    ∧ (totalAreaOf e.getFuzzySetConsequences st (samples mn mx st) = 0
        → e.defuzzifyBisector mn mx st = mn) := by
  have hrw : e.defuzzifyBisector mn mx st =
      (bisectorLoop e.getFuzzySetConsequences st
        (totalAreaOf e.getFuzzySetConsequences st (samples mn mx st) / 2)
        (samples mn mx st) 0).getD mn := rfl
  refine ⟨?_, ?_, ?_⟩
  · intro i hi hcross
    obtain ⟨hlt, hge⟩ := hcross
    rw [hrw, bisectorLoop_eq_some e.getFuzzySetConsequences st _
      (samples mn mx st) 0 i hi ?_ ?_]
    · rfl
    · intro j hj
      rw [zero_add]
      exact hlt j hj
    · rw [zero_add]
      exact hge
  · intro hall
    rw [hrw, bisectorLoop_eq_none e.getFuzzySetConsequences st _
      (samples mn mx st) 0 ?_]
    · rfl
    · intro i hi
      rw [zero_add]
      exact hall i hi
  · intro htz
    by_cases hemp : samples mn mx st = []
    · rw [hrw, hemp]
      rfl
    · obtain ⟨hst, _⟩ := samples_ne_nil_conditions mn mx st hemp
      obtain ⟨t, ht⟩ := samples_eq_cons mn mx st hemp
      rw [hrw, htz, ht]
      simp only [bisectorLoop]
      rw [if_pos (by
        rw [zero_add, zero_div]
        exact mul_nonneg (aggMu_nonneg e.getFuzzySetConsequences mn) hst.le)]
      rfl

/-- Witness for C5 at a concrete crossing: for `dipEngine` on `[0, 2]`
with step 1 the total area is 5/2; the left area is 1 < 5/4 after the
first sample and 3/2 ≥ 5/4 after the second, so the bisector is the
second sample `x = 1`. -/
theorem defuzzifyBisector_first_crossing_witness :
    dipEngine.defuzzifyBisector 0 2 1 = 1 := by
  have hsets : dipEngine.getFuzzySetConsequences = [dipSet] := rfl
  have hi : 1 < (samples 0 2 1).length := by
    rw [samples_012]
    norm_num
  have hlt : ∀ j, j < 1 →
      leftAreaUpTo dipEngine.getFuzzySetConsequences 1 (samples 0 2 1) j
        < totalAreaOf dipEngine.getFuzzySetConsequences 1 (samples 0 2 1)
          / 2 := by
    intro j hj
    interval_cases j
    rw [hsets, samples_012]
    norm_num [leftAreaUpTo, totalAreaOf, aggMu, dipSet, max_def]
  have hge : totalAreaOf dipEngine.getFuzzySetConsequences 1 (samples 0 2 1)
        / 2
      ≤ leftAreaUpTo dipEngine.getFuzzySetConsequences 1 (samples 0 2 1)
        1 := by
    rw [hsets, samples_012]
    norm_num [leftAreaUpTo, totalAreaOf, aggMu, dipSet, max_def]
  have happ := (defuzzifyBisector_first_crossing dipEngine 0 2 1).1 1 hi
    ⟨hlt, hge⟩
  rw [happ]
  simp [samples_012]

section CentroidClaims

/-- C7: both centroid defuzzifiers guard the division: they return 0 when
the summed membership mass over the samples is exactly 0, and the
quotient of the two Riemann sums otherwise. -/
theorem centroid_zero_mass_guard (A : FuzzySet) {α : Type}
    (e : InferenceEngine α) (mn mx st : ℚ) :
    (((samples mn mx st).map (fun x => A.membershipFunction x)).sum = 0 →
      A.centroid mn mx st = 0)
    ∧ (((samples mn mx st).map (fun x => A.membershipFunction x)).sum ≠ 0 →
      A.centroid mn mx st
        = ((samples mn mx st).map (fun x => x * A.membershipFunction x)).sum
          / ((samples mn mx st).map (fun x => A.membershipFunction x)).sum)
    ∧ (((samples mn mx st).map
          (fun x => aggMu e.getFuzzySetConsequences x)).sum = 0 →
      e.defuzzifyCentroid mn mx st = 0)
    ∧ (((samples mn mx st).map
          (fun x => aggMu e.getFuzzySetConsequences x)).sum ≠ 0 →
      e.defuzzifyCentroid mn mx st
        = ((samples mn mx st).map
            (fun x => x * aggMu e.getFuzzySetConsequences x)).sum
          / ((samples mn mx st).map
            (fun x => aggMu e.getFuzzySetConsequences x)).sum) := by
  have hA : A.centroid mn mx st =
      if ((samples mn mx st).map (fun x => A.membershipFunction x)).sum = 0
      then 0
      else ((samples mn mx st).map (fun x => x * A.membershipFunction x)).sum
        / ((samples mn mx st).map (fun x => A.membershipFunction x)).sum :=
    rfl
  have hE : e.defuzzifyCentroid mn mx st =
      if ((samples mn mx st).map
          (fun x => aggMu e.getFuzzySetConsequences x)).sum = 0
      then 0
      else ((samples mn mx st).map
          (fun x => x * aggMu e.getFuzzySetConsequences x)).sum
        / ((samples mn mx st).map
          (fun x => aggMu e.getFuzzySetConsequences x)).sum := rfl
  refine ⟨?_, ?_, ?_, ?_⟩
  · intro h
    rw [hA, if_pos h]
  · intro h
    rw [hA, if_neg h]
  · intro h
    rw [hE, if_pos h]
  · intro h
    rw [hE, if_neg h]

/-- Witness for C7: the all-zero set and the rule-less engine have zero
mass on `[0, 2]` and both centroids return 0; `dipSet` has mass 5/2 ≠ 0
and its centroid is the guarded quotient. -/
theorem centroid_zero_mass_guard_witness :
    ((samples 0 2 1).map (fun x => zeroSet.membershipFunction x)).sum = 0
    ∧ zeroSet.centroid 0 2 1 = 0
    ∧ ((samples 0 2 1).map
        (fun x => aggMu emptyEngine.getFuzzySetConsequences x)).sum = 0
    ∧ emptyEngine.defuzzifyCentroid 0 2 1 = 0
    ∧ ((samples 0 2 1).map (fun x => dipSet.membershipFunction x)).sum ≠ 0
    ∧ dipSet.centroid 0 2 1
      = ((samples 0 2 1).map (fun x => x * dipSet.membershipFunction x)).sum
        / ((samples 0 2 1).map (fun x => dipSet.membershipFunction x)).sum
    := by
  have hz1 : ((samples 0 2 1).map
      (fun x => zeroSet.membershipFunction x)).sum = 0 := by
    rw [samples_012]
    norm_num [zeroSet]
  have hz2 : ((samples 0 2 1).map
      (fun x => aggMu emptyEngine.getFuzzySetConsequences x)).sum = 0 := by
    rw [samples_012]
    norm_num [aggMu, emptyEngine, InferenceEngine.getFuzzySetConsequences]
  have hnz : ((samples 0 2 1).map
      (fun x => dipSet.membershipFunction x)).sum ≠ 0 := by
    rw [samples_012]
    norm_num [dipSet]
  exact ⟨hz1, (centroid_zero_mass_guard zeroSet emptyEngine 0 2 1).1 hz1,
    hz2, (centroid_zero_mass_guard zeroSet emptyEngine 0 2 1).2.2.1 hz2,
    hnz, (centroid_zero_mass_guard dipSet emptyEngine 0 2 1).2.1 hnz⟩

end CentroidClaims

section StaticFilterClaims

/-- C8: `getFuzzySetConsequences` is a static filter over the stored
`consequence` fields: it keeps exactly the rules whose consequence is
directly a `FuzzySet`, in original rule order, and drops every
function-valued consequence - in particular, an engine whose only rule
computes a `FuzzySet` dynamically yields the empty list. -/
theorem getFuzzySetConsequences_static_filter {α : Type}
    (e : InferenceEngine α) :
    e.getFuzzySetConsequences
        = e.rules.foldr (fun r acc =>
            match r.consequence with
            | Consequence.fixedSet A => A :: acc
            | Consequence.computed _ => acc) []
      ∧ hiddenSetEngine.getFuzzySetConsequences = [] := by
  constructor
  · obtain ⟨l⟩ := e
    show (l.map (fun r => r.consequence)).filterMap _ = _
    induction l with
    | nil => rfl
    | cons r t ih =>
        rw [List.map_cons, List.filterMap_cons, List.foldr_cons]
        cases hc : r.consequence with
        | fixedSet A => rw [ih]
        | computed f => rw [ih]
  · rfl

end StaticFilterClaims

section NonInterferenceClaims

/-- C10: the three defuzzification outputs are determined by the domain
parameters and the list of fuzzy-set consequences alone: two engines
over possibly different input types with the same
`getFuzzySetConsequences` produce identical values, whatever their
conditions, weights, and function-valued consequences. -/
theorem defuzzify_depend_only_on_consequences {α β : Type}
    (e1 : InferenceEngine α) (e2 : InferenceEngine β)
    (h : e1.getFuzzySetConsequences = e2.getFuzzySetConsequences)
    (mn mx st : ℚ) :
    e1.defuzzifyCentroid mn mx st = e2.defuzzifyCentroid mn mx st
      ∧ e1.defuzzifyMOM mn mx st = e2.defuzzifyMOM mn mx st
      ∧ e1.defuzzifyBisector mn mx st = e2.defuzzifyBisector mn mx st := by
  unfold InferenceEngine.defuzzifyCentroid InferenceEngine.defuzzifyMOM
    InferenceEngine.defuzzifyBisector
  rw [h]
  exact ⟨rfl, rfl, rfl⟩

/-- Witness for C10: `dipEngine` and `shuffledEngine` differ in
conditions, weights, and an extra function-valued rule but share the
fuzzy-set consequence list `[dipSet]`, so all three defuzzifiers agree on
`[0, 2]` with step 1. -/
theorem defuzzify_depend_only_on_consequences_witness :
    dipEngine.getFuzzySetConsequences
        = shuffledEngine.getFuzzySetConsequences
      ∧ dipEngine.defuzzifyCentroid 0 2 1
        = shuffledEngine.defuzzifyCentroid 0 2 1
      ∧ dipEngine.defuzzifyMOM 0 2 1 = shuffledEngine.defuzzifyMOM 0 2 1
      ∧ dipEngine.defuzzifyBisector 0 2 1
        = shuffledEngine.defuzzifyBisector 0 2 1 := by
  have h : dipEngine.getFuzzySetConsequences
      = shuffledEngine.getFuzzySetConsequences := rfl
  obtain ⟨h1, h2, h3⟩ :=
    defuzzify_depend_only_on_consequences dipEngine shuffledEngine h 0 2 1
  exact ⟨h, h1, h2, h3⟩

end NonInterferenceClaims

end JsFuzzyMind
